import Mathlib

/-!
Verification of the EC-BU chunked backup/restore engine.

Shallow embedding of the Python sources:
* `UploadAbstraction.py` — `ECBUMediaUpload` (byte-range view over a file)
* `ChunkChanges.py` — chunk hashing loop and linear-scan change detection
* `DriveAccess.py` — cached remote chunk directory and direct-index change
  detection
* `DriveAccessFuncs.py` — paginated listing plus sort of chunk records
* `ErrorWaiting.py` — `IncreasingBackoff`
* `ECBU.py` — backup driver (`begin_backup`, `backup_chunked_file_piece`)
* `ECRS.py` — restore driver (`begin_file_restore`)

Files are modelled as `List Nat` (one entry per byte); Python ints are
modelled as `Int` (or `Nat` where the source value is manifestly a byte
count); Python floats are modelled as `ℚ`; code that can raise returns
`Except`/`Option`.
-/

/-- One entry of the remote store's listing, as consumed by the cache:
the fields `id`, `name`, `md5Checksum` requested by the queries in
`ChunkChanges.py` / `DriveAccess.py`. -/
structure RemoteChunkRecord where
  id : String
  name : String
  md5Checksum : String
deriving DecidableEq, Repr

/-- `ChangedFile` struct from `ChunkChanges.py` / `DriveAccess.py`:
`changed` flag plus the optional google-drive file id (`None` modelled
as `none`). -/
structure ChangedFile where
  changed : Bool
  ident : Option String
deriving DecidableEq, Repr

/-- The two exception classes raised by `ECBUMediaUpload.__init__`
(`OffsetOutOfBoundsException`, `InvalidChunkException`). -/
inductive MediaUploadError where
  | offsetOutOfBounds
  | invalidChunk
deriving DecidableEq, Repr

/-- The state of a successfully constructed `ECBUMediaUpload`
(`UploadAbstraction.py`); the `resumable` flag and mimetype play no role
in any claim and are omitted. -/
structure ECBUMediaUpload where
  file_size : Int
  begin_index : Int
  end_index : Int
  chunk_size : Int
deriving DecidableEq, Repr

/-- `ECBUMediaUpload.__init__` (`UploadAbstraction.py` lines 32-48):
first the bounds check
`begin_index > file_size or end_index > file_size or begin_index < 0 or
end_index < 0` raising `OffsetOutOfBoundsException`, then the check
`chunk_size < 0` raising `InvalidChunkException`. -/
def ECBUMediaUpload.mk_checked (file_size begin_index end_index chunk_size : Int) :
    Except MediaUploadError ECBUMediaUpload :=
  if begin_index > file_size ∨ end_index > file_size ∨ begin_index < 0 ∨ end_index < 0 then
    .error .offsetOutOfBounds
  else if chunk_size < 0 then
    .error .invalidChunk
  else
    .ok ⟨file_size, begin_index, end_index, chunk_size⟩

/-- `ECBUMediaUpload.size`: `end_index - begin_index`. -/
def ECBUMediaUpload.size (v : ECBUMediaUpload) : Int :=
  v.end_index - v.begin_index

/-- `ECBUMediaUpload.chunksize`. -/
def ECBUMediaUpload.chunksize (v : ECBUMediaUpload) : Int :=
  v.chunk_size

/-- Model of `file.seek(pos); file.read(length)` on a `BufferedReader`:
drops the first `pos` bytes and reads up to `length` bytes of what
remains.  A negative `length` makes Python's `read` return everything to
end of file; all callers verified here pass `pos ≥ 0`, so the `toNat`
clamp on `pos` is never exercised with a negative seek. -/
def fileRead (file : List Nat) (pos length : Int) : List Nat :=
  let rest := file.drop pos.toNat
  if length < 0 then rest else rest.take length.toNat

/-- `ECBUMediaUpload.getbytes` (`UploadAbstraction.py` lines 62-76):
seek to `begin + begin_index`, clamp the length so the read does not
cross `end_index`, then read. -/
def ECBUMediaUpload.getbytes (v : ECBUMediaUpload) (file : List Nat)
    (begin_ length : Int) : List Nat :=
  let read_start_index : Int := begin_ + v.begin_index
  let length : Int :=
    if read_start_index + length > v.end_index then v.end_index - read_start_index
    else length
  fileRead file read_start_index length

/-- CLAIM C3 (corrected): construction of a byte-range view raises
`OffsetOutOfBounds` exactly when `begin_index` or `end_index` falls
outside `[0, file_size]`, raises `InvalidChunkSize` exactly when the
indices are in bounds and the sub-chunk size is negative, and succeeds
for every other argument combination — in particular a view with
`begin_index > end_index` (both in bounds) is constructed successfully;
the source has no `begin_index > end_index` check. -/
theorem mk_checked_spec (fs b e cs : Int) :
    (ECBUMediaUpload.mk_checked fs b e cs = .error .offsetOutOfBounds ↔
      (fs < b ∨ fs < e ∨ b < 0 ∨ e < 0)) ∧
    (ECBUMediaUpload.mk_checked fs b e cs = .error .invalidChunk ↔
      ((0 ≤ b ∧ b ≤ fs ∧ 0 ≤ e ∧ e ≤ fs) ∧ cs < 0)) ∧
    (ECBUMediaUpload.mk_checked fs b e cs = .ok ⟨fs, b, e, cs⟩ ↔
      ((0 ≤ b ∧ b ≤ fs ∧ 0 ≤ e ∧ e ≤ fs) ∧ 0 ≤ cs)) := by
  unfold ECBUMediaUpload.mk_checked
  split_ifs with h1 h2 <;>
    refine ⟨?_, ?_, ?_⟩ <;> simp_all <;> omega

/-- CLAIM C3, counterexample to the claim as stated: with
`file_size = 10`, `begin_index = 5`, `end_index = 3`, sub-chunk size 1,
we have `begin_index > end_index`, yet construction succeeds instead of
raising `OffsetOutOfBounds`. -/
theorem mk_checked_no_begin_le_end_check :
    ECBUMediaUpload.mk_checked 10 5 3 1 = .ok ⟨10, 5, 3, 1⟩ ∧ (3 : Int) < 5 := by
  constructor
  · rfl
  · decide

/-- The chunking loop of `begin_backup` (`ECBU.py` lines 143-170),
restricted to the state that determines the partition: `n` remaining
iterations of `for chunk_num in range(1, num_chunk_files + 1)` and the
running `bytes_uploaded`.  Each iteration computes
`end_index = bytes_uploaded + file_chunk_size`, clamps it with
`if end_index >= file_size: end_index = file_size`, emits the byte range
`[bytes_uploaded, end_index)` of the constructed `ECBUMediaUpload`, and
advances `bytes_uploaded` by `file_chunk.size() = end_index - bytes_uploaded`. -/
def begin_backup_loop (file_size file_chunk_size : Nat) : Nat → Nat → List (Nat × Nat)
  | 0, _ => []
  | n + 1, bytes_uploaded =>
    let end_index := bytes_uploaded + file_chunk_size
    let end_index := if file_size ≤ end_index then file_size else end_index
    (bytes_uploaded, end_index) ::
      begin_backup_loop file_size file_chunk_size n (bytes_uploaded + (end_index - bytes_uploaded))

/-- `num_chunk_files = math.ceil(file_size / file_chunk_size)` from
`begin_backup` (`ECBU.py` line 141), as the exact integer ceiling. -/
def num_chunk_files (file_size file_chunk_size : Nat) : Nat :=
  (file_size + file_chunk_size - 1) / file_chunk_size

/-- The byte-range partition computed by `begin_backup`: the loop run for
`num_chunk_files` iterations starting from `bytes_uploaded = 0`. -/
def begin_backup_chunks (file_size file_chunk_size : Nat) : List (Nat × Nat) :=
  begin_backup_loop file_size file_chunk_size (num_chunk_files file_size file_chunk_size) 0

theorem begin_backup_loop_eq (fs c : Nat) :
    ∀ (n b : Nat), b ≤ fs →
      begin_backup_loop fs c n b =
        (List.range n).map (fun i => (min (b + i * c) fs, min (b + (i + 1) * c) fs)) := by
  intro n
  induction n with
  | zero => intro b _; rfl
  | succ n ih =>
    intro b hb
    have hmin : (if fs ≤ b + c then fs else b + c) = min (b + c) fs := by
      split_ifs with h <;> omega
    have hb' : min (b + c) fs ≤ fs := min_le_right _ _
    have hadv : b + (min (b + c) fs - b) = min (b + c) fs := by omega
    rw [begin_backup_loop, hmin, hadv, ih (min (b + c) fs) hb',
      List.range_succ_eq_map, List.map_cons, List.map_map]
    rw [List.cons_eq_cons]
    constructor
    · simp only [Prod.mk.injEq]
      omega
    · refine List.map_congr_left fun i _ => ?_
      simp only [Function.comp_apply, Nat.succ_eq_add_one, Prod.mk.injEq]
      have e1 : (i + 1) * c = i * c + c := by ring
      have e2 : (i + 1 + 1) * c = i * c + c + c := by ring
      rw [e1, e2]
      generalize i * c = k
      omega

theorem begin_backup_chunks_eq (fs c : Nat) :
    begin_backup_chunks fs c =
      (List.range (num_chunk_files fs c)).map
        (fun i => (min (i * c) fs, min ((i + 1) * c) fs)) := by
  rw [begin_backup_chunks, begin_backup_loop_eq fs c _ 0 (Nat.zero_le fs)]
  simp

theorem num_chunk_files_spec (fs c : Nat) (hc : 0 < c) :
    fs ≤ num_chunk_files fs c * c ∧
    (∀ m, fs ≤ m * c → num_chunk_files fs c ≤ m) ∧
    (∀ i, i < num_chunk_files fs c → i * c < fs) := by
  unfold num_chunk_files
  rcases Nat.eq_zero_or_pos fs with h0 | h0
  · subst h0
    have : (0 + c - 1) / c = 0 := Nat.div_eq_of_lt (by omega)
    rw [this]
    exact ⟨by omega, fun m _ => Nat.zero_le m, fun i hi => by omega⟩
  · obtain ⟨f, rfl⟩ : ∃ f, fs = f + 1 := ⟨fs - 1, by omega⟩
    have hN : (f + 1 + c - 1) / c = f / c + 1 := by
      have : f + 1 + c - 1 = f + c := by omega
      rw [this, Nat.add_div_right f hc]
    rw [hN]
    have hdm := Nat.div_add_mod f c
    have hml : f % c < c := Nat.mod_lt f hc
    refine ⟨?_, ?_, ?_⟩
    · have : (f / c + 1) * c = c * (f / c) + c := by ring
      rw [this]
      omega
    · intro m hm
      have : f / c < m := (Nat.div_lt_iff_lt_mul hc).2 (by omega)
      omega
    · intro i hi
      have hle : i ≤ f / c := by omega
      have : i * c ≤ f / c * c := Nat.mul_le_mul_right c hle
      have := Nat.div_mul_le_self f c
      omega

/-- CLAIM C1: for every file size and positive chunk size, the chunk
partition computed by `begin_backup` has exactly
`ceil(file_size / chunk_size)` chunks (the length equals
`num_chunk_files`, which is the least `N` with `file_size ≤ N * c`),
the ranges are contiguous (each range starts where the previous ends),
pairwise non-overlapping, each is nonempty with its end at most
`file_size` (the final range being truncated to `file_size`), and their
union is exactly `[0, file_size)`. -/
theorem begin_backup_partition (fs c : Nat) (hc : 0 < c) :
    (begin_backup_chunks fs c).length = num_chunk_files fs c ∧
    fs ≤ num_chunk_files fs c * c ∧
    (∀ m, fs ≤ m * c → num_chunk_files fs c ≤ m) ∧
    (begin_backup_chunks fs c).Chain' (fun p q => p.2 = q.1) ∧
    (begin_backup_chunks fs c).Pairwise (fun p q => p.2 ≤ q.1) ∧
    (∀ p ∈ begin_backup_chunks fs c, p.1 < p.2 ∧ p.2 ≤ fs) ∧
    (∀ x, x < fs ↔ ∃ p ∈ begin_backup_chunks fs c, p.1 ≤ x ∧ x < p.2) := by
  obtain ⟨hceil, hmin, hlt⟩ := num_chunk_files_spec fs c hc
  rw [begin_backup_chunks_eq fs c]
  set N := num_chunk_files fs c with hN
  refine ⟨by simp, hceil, hmin, ?_, ?_, ?_, ?_⟩
  · rw [List.chain'_iff_get]
    intro i hi
    simp only [List.length_map, List.length_range] at hi
    simp [List.get_map, List.get_range]
  · rw [List.pairwise_map]
    refine (List.pairwise_lt_range N).imp ?_
    intro i j hij
    exact min_le_min (Nat.mul_le_mul_right c (by omega)) le_rfl
  · intro p hp
    simp only [List.mem_map, List.mem_range] at hp
    obtain ⟨i, hi, rfl⟩ := hp
    have h1 : i * c < fs := hlt i hi
    have h2 : i * c < (i + 1) * c := by
      have : (i + 1) * c = i * c + c := by ring
      omega
    refine ⟨?_, min_le_right _ _⟩
    show min (i * c) fs < min ((i + 1) * c) fs
    rw [min_eq_left (le_of_lt h1)]
    exact lt_min h2 h1
  · intro x
    constructor
    · intro hx
      refine ⟨(min ((x / c) * c) fs, min ((x / c + 1) * c) fs), ?_, ?_, ?_⟩
      · simp only [List.mem_map, List.mem_range]
        exact ⟨x / c, (Nat.div_lt_iff_lt_mul hc).2 (lt_of_lt_of_le hx hceil), rfl⟩
      · exact le_trans (min_le_left _ _) (Nat.div_mul_le_self x c)
      · have hdm := Nat.div_add_mod x c
        have hml : x % c < c := Nat.mod_lt x hc
        have : x < (x / c + 1) * c := by
          have e : (x / c + 1) * c = c * (x / c) + c := by ring
          omega
        exact lt_min this hx
    · rintro ⟨p, hp, _, hxe⟩
      simp only [List.mem_map, List.mem_range] at hp
      obtain ⟨i, hi, rfl⟩ := hp
      dsimp only at hxe
      exact lt_of_lt_of_le hxe (min_le_right _ _)

/-- Witness for CLAIM C1 at the spec's scenario (2500-byte file,
1000-byte chunks): the hypothesis `0 < 1000` holds and the partition
property follows by applying `begin_backup_partition` there. -/
theorem begin_backup_partition_witness :
    0 < 1000 ∧
    ((begin_backup_chunks 2500 1000).length = num_chunk_files 2500 1000 ∧
    2500 ≤ num_chunk_files 2500 1000 * 1000 ∧
    (∀ m, 2500 ≤ m * 1000 → num_chunk_files 2500 1000 ≤ m) ∧
    (begin_backup_chunks 2500 1000).Chain' (fun p q => p.2 = q.1) ∧
    (begin_backup_chunks 2500 1000).Pairwise (fun p q => p.2 ≤ q.1) ∧
    (∀ p ∈ begin_backup_chunks 2500 1000, p.1 < p.2 ∧ p.2 ≤ 2500) ∧
    (∀ x, x < 2500 ↔ ∃ p ∈ begin_backup_chunks 2500 1000, p.1 ≤ x ∧ x < p.2)) :=
  ⟨by decide, begin_backup_partition 2500 1000 (by decide)⟩

/-- The hashing loop of `hash_ecbu_media_file_upload` (`ChunkChanges.py`
lines 12-21), recorded as the list of byte chunks fed to the incremental
MD5 accumulator: while `bytes_hashed < file_chunk.size()`, read
`file_chunk.getbytes(bytes_hashed, file_chunk.chunksize())` and advance
`bytes_hashed` by the number of bytes actually returned.  `fuel` bounds
the iterations so the loop is a total function; `none` means the fuel
ran out before the loop exited. -/
def hash_ecbu_media_file_upload_reads (v : ECBUMediaUpload) (file : List Nat) :
    Nat → Int → Option (List (List Nat))
  | 0, bytes_hashed => if bytes_hashed < v.size then none else some []
  | fuel + 1, bytes_hashed =>
    if bytes_hashed < v.size then
      let current_chunk := v.getbytes file bytes_hashed v.chunksize
      match hash_ecbu_media_file_upload_reads v file fuel
          (bytes_hashed + current_chunk.length) with
      | none => none
      | some rest => some (current_chunk :: rest)
    else some []

theorem getbytes_length (v : ECBUMediaUpload) (file : List Nat)
    (h0 : 0 ≤ v.begin_index) (h2 : v.end_index ≤ (file.length : Int))
    (b : Int) (hb0 : 0 ≤ b) (hb : b < v.size) (hcs : 0 < v.chunk_size) :
    ((v.getbytes file b v.chunk_size).length : Int) = min v.chunk_size (v.size - b) := by
  have hsz : v.size = v.end_index - v.begin_index := rfl
  simp only [ECBUMediaUpload.getbytes, fileRead]
  split_ifs with hclamp hneg
  · exfalso; omega
  · simp only [List.length_take, List.length_drop]
    omega
  · exfalso; omega
  · simp only [List.length_take, List.length_drop]
    omega

theorem hash_reads_spec (v : ECBUMediaUpload) (file : List Nat)
    (h0 : 0 ≤ v.begin_index) (h1 : v.begin_index ≤ v.end_index)
    (h2 : v.end_index ≤ (file.length : Int)) (hcs : 0 < v.chunk_size) :
    ∀ (fuel : Nat) (b : Int), 0 ≤ b → b ≤ v.size → (v.size - b).toNat ≤ fuel →
      ∃ reads, hash_ecbu_media_file_upload_reads v file fuel b = some reads ∧
        b + ((reads.map List.length).sum : Int) = v.size ∧
        ∀ r ∈ reads, (r.length : Int) ≤ v.chunk_size := by
  intro fuel
  induction fuel with
  | zero =>
    intro b hb0 hble hfuel
    have hstop : ¬ b < v.size := by omega
    refine ⟨[], ?_, ?_, by simp⟩
    · simp [hash_ecbu_media_file_upload_reads, hstop]
    · simp; omega
  | succ fuel ih =>
    intro b hb0 hble hfuel
    by_cases hlt : b < v.size
    · have hlen := getbytes_length v file h0 h2 b hb0 hlt hcs
      have hchv : v.chunksize = v.chunk_size := rfl
      set chunk := v.getbytes file b v.chunk_size with hchunk
      have hpos : 0 < (chunk.length : Int) := by omega
      have hle2 : b + (chunk.length : Int) ≤ v.size := by omega
      obtain ⟨rest, hrest, hsum, hbound⟩ :=
        ih (b + chunk.length) (by omega) hle2 (by omega)
      refine ⟨chunk :: rest, ?_, ?_, ?_⟩
      · rw [hash_ecbu_media_file_upload_reads, if_pos hlt]
        dsimp only
        rw [hchv, ← hchunk, hrest]
      · simp only [List.map_cons, List.sum_cons]
        push_cast
        push_cast at hsum
        omega
      · intro r hr
        rcases List.mem_cons.1 hr with rfl | hr
        · omega
        · exact hbound r hr
    · refine ⟨[], ?_, ?_, by simp⟩
      · rw [hash_ecbu_media_file_upload_reads, if_neg hlt]
      · simp; omega

/-- CLAIM C4: for every byte-range view with a positive sub-chunk size
over a file that actually contains the view's byte range
(`0 ≤ begin_index ≤ end_index ≤ file length`), the hashing loop of
`hash_ecbu_media_file_upload` terminates (within `size()` iterations),
every read it performs returns at most `chunksize()` bytes (a short
final read being the last one), and on exit it has hashed exactly
`size()` bytes. -/
theorem hash_ecbu_media_file_upload_terminates (v : ECBUMediaUpload) (file : List Nat)
    (h0 : 0 ≤ v.begin_index) (h1 : v.begin_index ≤ v.end_index)
    (h2 : v.end_index ≤ (file.length : Int)) (hcs : 0 < v.chunk_size) :
    ∃ reads, hash_ecbu_media_file_upload_reads v file (v.size).toNat 0 = some reads ∧
      ((reads.map List.length).sum : Int) = v.size ∧
      ∀ r ∈ reads, (r.length : Int) ≤ v.chunk_size := by
  have hsz : v.size = v.end_index - v.begin_index := rfl
  obtain ⟨reads, hr, hsum, hb⟩ :=
    hash_reads_spec v file h0 h1 h2 hcs (v.size).toNat 0 le_rfl (by omega) (by omega)
  exact ⟨reads, hr, by omega, hb⟩

/-- Witness for CLAIM C4: the view `[1, 4)` over the 4-byte file
`[9, 8, 7, 6]` with sub-chunk size 2 hashes exactly 3 bytes in reads of
at most 2 bytes. -/
theorem hash_ecbu_media_file_upload_terminates_witness :
    (0 : Int) ≤ 1 ∧ (1 : Int) ≤ 4 ∧ (4 : Int) ≤ (([9, 8, 7, 6] : List Nat).length : Int) ∧
    (0 : Int) < 2 ∧
    ∃ reads,
      hash_ecbu_media_file_upload_reads ⟨4, 1, 4, 2⟩ [9, 8, 7, 6]
          ((ECBUMediaUpload.size ⟨4, 1, 4, 2⟩).toNat) 0 = some reads ∧
      ((reads.map List.length).sum : Int) = ECBUMediaUpload.size ⟨4, 1, 4, 2⟩ ∧
      ∀ r ∈ reads, (r.length : Int) ≤ 2 :=
  ⟨by decide, by decide, by decide, by decide,
   hash_ecbu_media_file_upload_terminates ⟨4, 1, 4, 2⟩ [9, 8, 7, 6]
     (by decide) (by decide) (by decide) (by decide)⟩

/-- CLAIM C8: for every byte-range view satisfying
`0 ≤ begin_index ≤ end_index ≤ file_size` and every read request
(relative offset and length, both nonnegative, offset within the view),
`getbytes` seeks to `begin_index + offset` (the result is a prefix of
the file suffix starting there) and clamps the length so the returned
bytes never include any byte at or beyond `end_index`: all returned
bytes lie in `[begin_index, end_index)`. -/
theorem getbytes_within_bounds (v : ECBUMediaUpload) (file : List Nat)
    (h0 : 0 ≤ v.begin_index) (h1 : v.begin_index ≤ v.end_index)
    (h2 : v.end_index ≤ v.file_size)
    (off len : Int) (hoff0 : 0 ≤ off) (hoff : off ≤ v.size) (hlen : 0 ≤ len) :
    ∃ k : Nat,
      v.getbytes file off len = (file.drop (v.begin_index + off).toNat).take k ∧
      v.begin_index ≤ v.begin_index + off ∧
      (v.begin_index + off : Int) + k ≤ v.end_index := by
  have hsz : v.size = v.end_index - v.begin_index := rfl
  simp only [ECBUMediaUpload.getbytes, fileRead]
  have hcomm : off + v.begin_index = v.begin_index + off := by ring
  rw [hcomm]
  split_ifs with hclamp hneg
  · exfalso; omega
  · exact ⟨(v.end_index - (v.begin_index + off)).toNat, rfl, by omega, by omega⟩
  · exfalso; omega
  · exact ⟨len.toNat, rfl, by omega, by omega⟩

/-- Witness for CLAIM C8: the view `[2, 6)` over a 10-byte file with an
over-long read request `(offset 1, length 100)` stays within
`[begin_index, end_index)`. -/
theorem getbytes_within_bounds_witness :
    (0 : Int) ≤ 2 ∧ (2 : Int) ≤ 6 ∧ (6 : Int) ≤ 10 ∧
    (0 : Int) ≤ 1 ∧ (1 : Int) ≤ ECBUMediaUpload.size ⟨10, 2, 6, 1⟩ ∧ (0 : Int) ≤ 100 ∧
    ∃ k : Nat,
      ECBUMediaUpload.getbytes ⟨10, 2, 6, 1⟩ [0, 1, 2, 3, 4, 5, 6, 7, 8, 9] 1 100 =
        (([0, 1, 2, 3, 4, 5, 6, 7, 8, 9] : List Nat).drop ((2 + 1 : Int)).toNat).take k ∧
      (2 : Int) ≤ 2 + 1 ∧ ((2 + 1 : Int) + k ≤ 6) :=
  ⟨by decide, by decide, by decide, by decide, by decide, by decide,
   getbytes_within_bounds ⟨10, 2, 6, 1⟩ [0, 1, 2, 3, 4, 5, 6, 7, 8, 9]
     (by decide) (by decide) (by decide) 1 100 (by decide) (by decide) (by decide)⟩

/-- Outcome of one `request.next_chunk()` call inside
`backup_chunked_file_piece` (`ECBU.py` lines 47-76): either the call
returns (a successful transfer step) or it raises `HttpError` with the
given status. -/
inductive UploadEvent where
  | success
  | httpError (status : Nat)
deriving DecidableEq, Repr

/-- The statuses retried with exponential backoff in
`backup_chunked_file_piece` (`ECBU.py` line 58). -/
def backup_transient_statuses : List Nat := [500, 502, 503, 504]

/-- The sequence of `time.sleep(backoff_time)` durations performed by the
transfer loop of `backup_chunked_file_piece` (`ECBU.py` lines 44-76)
along a given sequence of `next_chunk` outcomes, starting from the
current `backoff_time`.  On a transient error the loop sleeps for the
current `backoff_time` and then doubles it only while it is below 120
(`if backoff_time < 120: backoff_time *= 2`); a 404 or any other
non-transient status returns from the function; after a successful step
`backoff_time` is reset to the default 0.5. -/
def backup_chunked_file_piece_sleeps : List UploadEvent → ℚ → List ℚ
  | [], _ => []
  | .success :: rest, _ => backup_chunked_file_piece_sleeps rest (1/2)
  | .httpError s :: rest, backoff_time =>
    if s = 404 then []
    else if s ∈ backup_transient_statuses then
      backoff_time :: backup_chunked_file_piece_sleeps rest
        (if backoff_time < 120 then backoff_time * 2 else backoff_time)
    else []

/-- The value of `backoff_time` after `j` consecutive transient failures
starting from the default 0.5: it doubles while below 120 and therefore
tops out at 128. -/
def backoff_trajectory (j : Nat) : ℚ :=
  min ((1/2) * 2 ^ j) 128

theorem backoff_trajectory_step (j : Nat) :
    (if backoff_trajectory j < 120 then backoff_trajectory j * 2 else backoff_trajectory j) =
      backoff_trajectory (j + 1) := by
  unfold backoff_trajectory
  rcases le_or_lt (j : Nat) 7 with hj | hj
  · have h2 : (2 : ℚ) ^ j ≤ 2 ^ 7 := pow_le_pow_right (by norm_num) hj
    have hlt : (1/2 : ℚ) * 2 ^ j < 120 := by
      norm_num at h2 ⊢
      linarith
    have hle128 : (1/2 : ℚ) * 2 ^ j ≤ 128 := by nlinarith
    have hle128' : (1/2 : ℚ) * 2 ^ (j + 1) ≤ 128 := by
      have h2' : (2 : ℚ) ^ (j + 1) ≤ 2 ^ 8 := pow_le_pow_right (by norm_num) (by omega)
      norm_num at h2' ⊢
      linarith
    rw [min_eq_left hle128, if_pos hlt, min_eq_left hle128']
    ring
  · have h2 : (2 : ℚ) ^ 8 ≤ 2 ^ j := pow_le_pow_right (by norm_num) (by omega)
    have hge : (128 : ℚ) ≤ (1/2) * 2 ^ j := by
      norm_num at h2 ⊢
      linarith
    have hge' : (128 : ℚ) ≤ (1/2) * 2 ^ (j + 1) := by
      have h2' : (2 : ℚ) ^ j ≤ 2 ^ (j + 1) := pow_le_pow_right (by norm_num) (by omega)
      norm_num at h2' ⊢
      linarith
    rw [min_eq_right hge, min_eq_right hge', if_neg (by norm_num)]

theorem backup_sleeps_all_on_trajectory :
    ∀ (events : List UploadEvent) (j : Nat),
      ∀ w ∈ backup_chunked_file_piece_sleeps events (backoff_trajectory j),
        ∃ j', w = backoff_trajectory j' := by
  intro events
  induction events with
  | nil => intro j w hw; simp [backup_chunked_file_piece_sleeps] at hw
  | cons e rest ih =>
    intro j w hw
    rcases e with _ | s
    · rw [backup_chunked_file_piece_sleeps] at hw
      have h0 : (1/2 : ℚ) = backoff_trajectory 0 := by
        unfold backoff_trajectory; norm_num
      rw [h0] at hw
      exact ih 0 w hw
    · rw [backup_chunked_file_piece_sleeps] at hw
      by_cases h404 : s = 404
      · rw [if_pos h404] at hw
        simp at hw
      · rw [if_neg h404] at hw
        by_cases htrans : s ∈ backup_transient_statuses
        · rw [if_pos htrans] at hw
          rcases List.mem_cons.1 hw with rfl | hw'
          · exact ⟨j, rfl⟩
          · rw [backoff_trajectory_step j] at hw'
            exact ih (j + 1) w hw'
        · rw [if_neg htrans] at hw
          simp at hw

theorem backoff_trajectory_bounds (j : Nat) :
    1/2 ≤ backoff_trajectory j ∧ backoff_trajectory j ≤ 128 := by
  unfold backoff_trajectory
  constructor
  · apply le_min
    · have : (1 : ℚ) ≤ 2 ^ j := by
        calc (1 : ℚ) = 1 ^ j := (one_pow j).symm
          _ ≤ 2 ^ j := pow_le_pow_left (by norm_num) (by norm_num) j
      linarith
    · norm_num
  · exact min_le_right _ _

/-- CLAIM C7 (corrected): in the transfer loop of
`backup_chunked_file_piece` the retry wait starts at 0.5 s, and on the
`j`-th consecutive transient failure (status 500/502/503/504) the loop
sleeps `min(0.5 * 2 ^ j, 128)` seconds: the wait doubles only while it
is below 120 s, so it tops out at 128 s — not 120 s — and every wait
ever slept lies in `[0.5, 128]`; after any successful transfer step the
wait is reset to the initial 0.5 s. -/
theorem backup_chunked_file_piece_backoff :
    (∀ k, backup_chunked_file_piece_sleeps
        (List.replicate k (UploadEvent.httpError 500)) (1/2) =
      (List.range k).map backoff_trajectory) ∧
    (∀ events, ∀ w ∈ backup_chunked_file_piece_sleeps events (1/2 : ℚ),
      1/2 ≤ w ∧ w ≤ 128) ∧
    (∀ rest t, backup_chunked_file_piece_sleeps (UploadEvent.success :: rest) t =
      backup_chunked_file_piece_sleeps rest (1/2)) := by
  have h0 : (1/2 : ℚ) = backoff_trajectory 0 := by
    unfold backoff_trajectory; norm_num
  refine ⟨?_, ?_, fun rest t => rfl⟩
  · have key : ∀ (k j : Nat),
        backup_chunked_file_piece_sleeps
            (List.replicate k (UploadEvent.httpError 500)) (backoff_trajectory j) =
          (List.range k).map (fun n => backoff_trajectory (j + n)) := by
      intro k
      induction k with
      | zero => intro j; rfl
      | succ k ih =>
        intro j
        rw [List.replicate_succ, backup_chunked_file_piece_sleeps,
          if_neg (by norm_num : ¬(500 = 404)),
          if_pos (by simp [backup_transient_statuses] : 500 ∈ backup_transient_statuses),
          backoff_trajectory_step j, ih (j + 1), List.range_succ_eq_map, List.map_cons,
          List.map_map, List.cons_eq_cons]
        refine ⟨by simp, List.map_congr_left fun n _ => ?_⟩
        simp only [Function.comp_apply, Nat.succ_eq_add_one]
        congr 1
        omega
    intro k
    rw [h0, key k 0]
    exact List.map_congr_left fun n _ => by rw [Nat.zero_add]
  · intro events w hw
    rw [h0] at hw
    obtain ⟨j', rfl⟩ := backup_sleeps_all_on_trajectory events 0 w hw
    exact backoff_trajectory_bounds j'

/-- CLAIM C7, counterexample to the claim as stated: after nine
consecutive transient failures the loop sleeps 128 seconds, exceeding
the claimed 120-second ceiling. -/
theorem backup_backoff_exceeds_120 :
    backup_chunked_file_piece_sleeps (List.replicate 9 (UploadEvent.httpError 500)) (1/2) =
      [1/2, 1, 2, 4, 8, 16, 32, 64, 128] ∧
    (128 : ℚ) ∈ backup_chunked_file_piece_sleeps
        (List.replicate 9 (UploadEvent.httpError 500)) (1/2) ∧
    (120 : ℚ) < 128 := by
  have h : backup_chunked_file_piece_sleeps
      (List.replicate 9 (UploadEvent.httpError 500)) (1/2) =
      [1/2, 1, 2, 4, 8, 16, 32, 64, 128] := by
    norm_num [backup_chunked_file_piece_sleeps, backup_transient_statuses, List.replicate]
  refine ⟨h, ?_, by norm_num⟩
  rw [h]
  norm_num

/-- Witness for CLAIM C7: with two consecutive transient failures the
waits slept are 0.5 s and 1 s, and the 1 s wait is within `[0.5, 128]`. -/
theorem backup_chunked_file_piece_backoff_witness :
    (1 : ℚ) ∈ backup_chunked_file_piece_sleeps
        (List.replicate 2 (UploadEvent.httpError 503)) (1/2) ∧
    (1/2 : ℚ) ≤ 1 ∧ (1 : ℚ) ≤ 128 := by
  have hmem : (1 : ℚ) ∈ backup_chunked_file_piece_sleeps
      (List.replicate 2 (UploadEvent.httpError 503)) (1/2) := by
    have h : backup_chunked_file_piece_sleeps
        (List.replicate 2 (UploadEvent.httpError 503)) (1/2) = [1/2, 1] := by
      norm_num [backup_chunked_file_piece_sleeps, backup_transient_statuses, List.replicate]
    rw [h]
    norm_num
  exact ⟨hmem,
    backup_chunked_file_piece_backoff.2.1
      (List.replicate 2 (UploadEvent.httpError 503)) 1 hmem⟩

/-- Helper for `chunk_name_to_num`: the characters after the last `'.'`
of the name (the whole name when it has no `'.'`), the effect of
`re.sub(r'^(.*)\.', '', chunk_name)` with its greedy `(.*)`. -/
def after_last_dot (s : List Char) : List Char :=
  s.foldl (fun acc c => if c = '.' then [] else acc ++ [c]) []

/-- Helper for `chunk_name_to_num`: Python `int()` on a nonempty decimal
digit string; `none` models the `ValueError` on anything else. -/
def parse_digits (cs : List Char) : Option Nat :=
  if cs = [] then none
  else
    cs.foldl (fun acc c =>
      match acc with
      | none => none
      | some n => if c.isDigit then some (n * 10 + (c.toNat - 48)) else none) (some 0)

/-- Helper for `chunk_name_to_num`: Python `int()` on a decimal string
with an optional leading minus sign. -/
def parse_int (cs : List Char) : Option Int :=
  match cs with
  | '-' :: rest => (parse_digits rest).map (fun n => -(n : Int))
  | _ => (parse_digits cs).map (fun n => (n : Int))

/-- `DriveChunks._chunk_name_to_num` (`DriveAccess.py` lines 34-41), also
the body of `chunk_id_response_compare` (`DriveAccessFuncs.py` lines
41-50): `int(re.sub(r'^(.*)\.', '', chunk_name))`, isolating the 23 in
`HHS.23`; `none` models the `ValueError` raised by `int()`. -/
def chunk_name_to_num (chunk_name : String) : Option Int :=
  parse_int (after_last_dot chunk_name.data)

/-- `DriveChunks._chunk_id_response_compare` (`DriveAccess.py` lines
43-49): the sort key of a cached record. -/
def chunk_id_response_compare (item : RemoteChunkRecord) : Option Int :=
  chunk_name_to_num item.name

/-- `check_if_chunk_exists_or_changed` from `ChunkChanges.py` lines
75-91: the linear scan over the cached directory once the cache is
populated.  `local_hash` abstracts the digest
`hash_ecbu_media_file_upload(file_chunk)` computed on a name match;
`⟨true, none⟩` is `ChangedFile(True, None)` for a chunk never seen. -/
def ChunkChanges.check_if_chunk_exists_or_changed :
    List RemoteChunkRecord → String → String → ChangedFile
  | [], _, _ => ⟨true, none⟩
  | file :: rest, file_chunk_name, local_hash =>
    if file_chunk_name = file.name then
      if file.md5Checksum = local_hash then ⟨false, none⟩
      else ⟨true, some file.id⟩
    else ChunkChanges.check_if_chunk_exists_or_changed rest file_chunk_name local_hash

/-- Python list subscript `l[i]` with its negative-index wraparound;
`none` models `IndexError`. -/
def pyIndex {α : Type} (l : List α) (i : Int) : Option α :=
  if 0 ≤ i then l.get? i.toNat
  else if 0 ≤ (l.length : Int) + i then l.get? ((l.length : Int) + i).toNat
  else none

/-- `DriveChunks.check_if_chunk_exists_or_changed` (`DriveAccess.py`
lines 85-126) once the cache is populated: compute
`chunk_idx = _chunk_name_to_num(file_chunk_name) - 1`, report not-found
when `chunk_idx > len(cache) - 1`, otherwise subscript the cache there,
verify the name, and compare hashes.  `none` models an uncaught
exception (`ValueError` from `int()` or `IndexError` from a negative
index below `-len(cache)`). -/
def DriveChunks.check_if_chunk_exists_or_changed
    (cache : List RemoteChunkRecord) (file_chunk_name local_hash : String) :
    Option ChangedFile :=
  match chunk_name_to_num file_chunk_name with
  | none => none
  | some num =>
    let chunk_idx : Int := num - 1
    if chunk_idx > (cache.length : Int) - 1 then some ⟨true, none⟩
    else
      match pyIndex cache chunk_idx with
      | none => none
      | some chunk =>
        if file_chunk_name = chunk.name then
          if chunk.md5Checksum = local_hash then some ⟨false, none⟩
          else some ⟨true, some chunk.id⟩
        else some ⟨true, none⟩

/-- `DriveChunks._refresh_cache` (`DriveAccess.py` lines 51-73) and
`get_chunk_file_information` (`DriveAccessFuncs.py` lines 53-73):
accumulate all pages returned by the paginated listing, then
`sort(key=_chunk_id_response_compare)`.  Python's `list.sort` is a
stable comparison sort by the key, modelled by the stable
`List.insertionSort` on the key order; `none` models the `ValueError`
raised while computing a key for a record whose name has no integer
suffix. -/
def refresh_cache (pages : List (List RemoteChunkRecord)) : Option (List RemoteChunkRecord) :=
  let chunk_changes_cache := pages.join
  if chunk_changes_cache.all (fun r => (chunk_id_response_compare r).isSome) then
    some (List.insertionSort
      (fun a b => (chunk_id_response_compare a).getD 0 ≤ (chunk_id_response_compare b).getD 0)
      chunk_changes_cache)
  else none

theorem ChunkChanges.check_eq_find
    (cache : List RemoteChunkRecord) (name local_hash : String) :
    ChunkChanges.check_if_chunk_exists_or_changed cache name local_hash =
      match cache.find? (fun r => name == r.name) with
      | none => ChangedFile.mk true none
      | some r =>
        if r.md5Checksum = local_hash then ChangedFile.mk false none
        else ChangedFile.mk true (some r.id) := by
  induction cache with
  | nil => rfl
  | cons file rest ih =>
    rw [ChunkChanges.check_if_chunk_exists_or_changed]
    by_cases h : name = file.name
    · rw [if_pos h, List.find?_cons_of_pos _ (by simpa using h)]
    · rw [if_neg h, List.find?_cons_of_neg _ (by simpa using h), ih]

theorem find_eq_get_of_unique_index {α : Type} (p : α → Bool) :
    ∀ (l : List α) (k : Nat),
      (∀ (j : Nat) (hj : j < l.length), p (l.get ⟨j, hj⟩) = true → j = k) →
      l.find? p = match l.get? k with
        | none => none
        | some x => if p x then some x else none := by
  intro l
  induction l with
  | nil => intro k _; rfl
  | cons x rest ih =>
    intro k huniq
    cases k with
    | zero =>
      by_cases hx : p x
      · rw [List.find?_cons_of_pos _ hx]
        simp [hx]
      · rw [List.find?_cons_of_neg _ (by simpa using hx)]
        have hrest : rest.find? p = none := by
          rw [List.find?_eq_none]
          intro y hy hpy
          obtain ⟨j, hj, rfl⟩ := List.mem_iff_get.1 hy
          have := huniq (j + 1) (by simpa using Nat.succ_lt_succ j.2)
            (by simpa using hpy)
          omega
        rw [hrest]
        simp [hx]
    | succ k' =>
      have hx : ¬ p x = true := by
        intro hpx
        have := huniq 0 (by simp) (by simpa using hpx)
        omega
      rw [List.find?_cons_of_neg _ hx]
      have huniq' : ∀ (j : Nat) (hj : j < rest.length),
          p (rest.get ⟨j, hj⟩) = true → j = k' := by
        intro j hj hpj
        have := huniq (j + 1) (by simpa using Nat.succ_lt_succ hj)
          (by simpa using hpj)
        omega
      rw [ih k' huniq']
      rfl

theorem DriveChunks.check_eq_posMatch (cache : List RemoteChunkRecord)
    (name local_hash : String) (n : Int)
    (hp : chunk_name_to_num name = some n) (hn : 1 ≤ n) :
    DriveChunks.check_if_chunk_exists_or_changed cache name local_hash =
      some (match cache.get? (n - 1).toNat with
        | none => ChangedFile.mk true none
        | some chunk =>
          if name = chunk.name then
            if chunk.md5Checksum = local_hash then ChangedFile.mk false none
            else ChangedFile.mk true (some chunk.id)
          else ChangedFile.mk true none) := by
  simp only [DriveChunks.check_if_chunk_exists_or_changed, hp]
  by_cases hbig : (n - 1 : Int) > (cache.length : Int) - 1
  · rw [if_pos hbig]
    have hnone : cache.get? (n - 1).toNat = none := by
      rw [List.get?_eq_none]
      omega
    rw [hnone]
  · rw [if_neg hbig]
    have hpy : pyIndex cache (n - 1) = cache.get? (n - 1).toNat := by
      rw [pyIndex, if_pos (by omega : (0 : Int) ≤ n - 1)]
    rw [hpy]
    cases hq : cache.get? (n - 1).toNat with
    | none =>
      exfalso
      rw [List.get?_eq_none] at hq
      omega
    | some chunk =>
      by_cases h1 : name = chunk.name
      · by_cases h2 : chunk.md5Checksum = local_hash
        · simp [h1, h2]
        · simp [h1, h2]
      · simp [h1]

/-- CLAIM C2 (corrected): change classification.  For the linear-scan
classifier of `ChunkChanges.py` the claimed trichotomy holds for every
directory: name not found anywhere ⇒ `(changed = true, id absent)`;
first record bearing the name with equal stored hash ⇒
`(changed = false)`; with differing hash ⇒ `(changed = true, id = that
record's id)`.  The direct-index classifier of `DriveAccess.py` instead
realizes "found" as "the record at cache position (parsed index − 1)
bears the queried name": a record with the queried name elsewhere in
the cache is still classified `(changed = true, id absent)`, so the
claim as stated fails for it. -/
theorem check_if_chunk_exists_or_changed_classification :
    (∀ (cache : List RemoteChunkRecord) (name local_hash : String),
      ChunkChanges.check_if_chunk_exists_or_changed cache name local_hash =
        match cache.find? (fun r => name == r.name) with
        | none => ChangedFile.mk true none
        | some r =>
          if r.md5Checksum = local_hash then ChangedFile.mk false none
          else ChangedFile.mk true (some r.id)) ∧
    (∀ (cache : List RemoteChunkRecord) (name local_hash : String) (n : Int),
      chunk_name_to_num name = some n → 1 ≤ n →
      DriveChunks.check_if_chunk_exists_or_changed cache name local_hash =
        some (match cache.get? (n - 1).toNat with
          | none => ChangedFile.mk true none
          | some chunk =>
            if name = chunk.name then
              if chunk.md5Checksum = local_hash then ChangedFile.mk false none
              else ChangedFile.mk true (some chunk.id)
            else ChangedFile.mk true none)) :=
  ⟨ChunkChanges.check_eq_find,
   fun cache name local_hash n hp hn =>
     DriveChunks.check_eq_posMatch cache name local_hash n hp hn⟩

/-- CLAIM C2, counterexample to the claim as stated: the cache holds a
record named `F.2` whose stored hash equals the local digest, so the
claim demands `(changed = false)`; but the direct-index classifier
looks at position `2 - 1 = 1`, past the end of the one-element cache,
and reports `(changed = true, id absent)`. -/
theorem indexed_misses_present_name :
    (∃ r ∈ [RemoteChunkRecord.mk "id2" "F.2" "h"], r.name = "F.2" ∧ r.md5Checksum = "h") ∧
    DriveChunks.check_if_chunk_exists_or_changed
        [RemoteChunkRecord.mk "id2" "F.2" "h"] "F.2" "h" =
      some (ChangedFile.mk true none) ∧
    ChangedFile.mk true none ≠ ChangedFile.mk false none :=
  ⟨⟨RemoteChunkRecord.mk "id2" "F.2" "h", by decide, rfl, rfl⟩, by decide, by decide⟩

/-- Witness for CLAIM C2: both classification characterizations applied
at a concrete one-record cache and the name `F.2`. -/
theorem check_if_chunk_exists_or_changed_classification_witness :
    (ChunkChanges.check_if_chunk_exists_or_changed
        [RemoteChunkRecord.mk "id2" "F.2" "h"] "F.2" "h" =
      match [RemoteChunkRecord.mk "id2" "F.2" "h"].find? (fun r => "F.2" == r.name) with
      | none => ChangedFile.mk true none
      | some r =>
        if r.md5Checksum = "h" then ChangedFile.mk false none
        else ChangedFile.mk true (some r.id)) ∧
    (chunk_name_to_num "F.2" = some 2 ∧ (1 : Int) ≤ 2 ∧
      DriveChunks.check_if_chunk_exists_or_changed
          [RemoteChunkRecord.mk "id2" "F.2" "h"] "F.2" "h" =
        some (match [RemoteChunkRecord.mk "id2" "F.2" "h"].get? ((2 : Int) - 1).toNat with
          | none => ChangedFile.mk true none
          | some chunk =>
            if "F.2" = chunk.name then
              if chunk.md5Checksum = "h" then ChangedFile.mk false none
              else ChangedFile.mk true (some chunk.id)
            else ChangedFile.mk true none)) :=
  ⟨check_if_chunk_exists_or_changed_classification.1
     [RemoteChunkRecord.mk "id2" "F.2" "h"] "F.2" "h",
   by decide, by decide,
   check_if_chunk_exists_or_changed_classification.2
     [RemoteChunkRecord.mk "id2" "F.2" "h"] "F.2" "h" 2 (by decide) (by decide)⟩

/-- CLAIM C10 (corrected): the linear-scan and direct-index change
classifiers agree whenever the cache is index-consistent — the record
at position `j` has a name whose numeric suffix is `j + 1` (the state
produced by a complete backup) — and the queried name parses to an
index at least 1.  In general they disagree (see the counterexample
with a single record named `F.2`). -/
theorem linear_indexed_agree (cache : List RemoteChunkRecord)
    (name local_hash : String) (n : Int)
    (hp : chunk_name_to_num name = some n) (hn : 1 ≤ n)
    (hcons : ∀ (j : Nat) (hj : j < cache.length),
      chunk_name_to_num (cache.get ⟨j, hj⟩).name = some ((j : Int) + 1)) :
    DriveChunks.check_if_chunk_exists_or_changed cache name local_hash =
      some (ChunkChanges.check_if_chunk_exists_or_changed cache name local_hash) := by
  rw [DriveChunks.check_eq_posMatch cache name local_hash n hp hn,
    ChunkChanges.check_eq_find]
  have huniq : ∀ (j : Nat) (hj : j < cache.length),
      (fun r => name == r.name) (cache.get ⟨j, hj⟩) = true → j = (n - 1).toNat := by
    intro j hj hpj
    simp only [beq_iff_eq] at hpj
    have h1 := hcons j hj
    rw [← hpj, hp] at h1
    have h2 : n = (j : Int) + 1 := Option.some.inj h1
    omega
  rw [find_eq_get_of_unique_index _ cache (n - 1).toNat huniq]
  cases hq : cache.get? (n - 1).toNat with
  | none => rfl
  | some chunk =>
    by_cases h1 : name = chunk.name
    · simp [h1]
    · simp [h1]

/-- CLAIM C10, counterexample to the claim as stated: on the one-record
cache `[F.2]` and query `F.2` the linear scan finds the record and
reports `(changed = false)` while the direct-index lookup reports
`(changed = true, id absent)` — the two classifiers differ. -/
theorem linear_indexed_disagree :
    DriveChunks.check_if_chunk_exists_or_changed
        [RemoteChunkRecord.mk "idx" "F.2" "h"] "F.2" "h" =
      some (ChangedFile.mk true none) ∧
    ChunkChanges.check_if_chunk_exists_or_changed
        [RemoteChunkRecord.mk "idx" "F.2" "h"] "F.2" "h" =
      ChangedFile.mk false none ∧
    ChangedFile.mk true none ≠ ChangedFile.mk false none :=
  ⟨by decide, by decide, by decide⟩

/-- Witness for CLAIM C10 on the index-consistent cache
`[F.1, F.2]` queried with `F.2`. -/
theorem linear_indexed_agree_witness :
    chunk_name_to_num "F.2" = some 2 ∧ (1 : Int) ≤ 2 ∧
    (∀ (j : Nat)
      (hj : j < ([RemoteChunkRecord.mk "a" "F.1" "x",
        RemoteChunkRecord.mk "b" "F.2" "h"] : List RemoteChunkRecord).length),
      chunk_name_to_num
        (([RemoteChunkRecord.mk "a" "F.1" "x",
          RemoteChunkRecord.mk "b" "F.2" "h"] : List RemoteChunkRecord).get ⟨j, hj⟩).name =
        some ((j : Int) + 1)) ∧
    DriveChunks.check_if_chunk_exists_or_changed
        [RemoteChunkRecord.mk "a" "F.1" "x", RemoteChunkRecord.mk "b" "F.2" "h"] "F.2" "h" =
      some (ChunkChanges.check_if_chunk_exists_or_changed
        [RemoteChunkRecord.mk "a" "F.1" "x", RemoteChunkRecord.mk "b" "F.2" "h"] "F.2" "h") :=
  ⟨by decide, by decide, by decide,
   linear_indexed_agree _ "F.2" "h" 2 (by decide) (by decide) (by decide)⟩

/-- CLAIM C5: for every multiset of remote chunk records accumulated
from the paginated listing in any order (with every record name
carrying an integer suffix), the refreshed cache is a permutation of
the accumulated records sorted ascending by the integer parsed from the
substring of the name after the last `'.'`. -/
theorem refresh_cache_sorted (pages : List (List RemoteChunkRecord))
    (cache : List RemoteChunkRecord) (h : refresh_cache pages = some cache) :
    (∀ r ∈ cache, (chunk_name_to_num r.name).isSome) ∧
    cache.Sorted (fun a b =>
      (chunk_name_to_num a.name).getD 0 ≤ (chunk_name_to_num b.name).getD 0) ∧
    cache.Perm pages.join := by
  simp only [refresh_cache] at h
  by_cases hall : (pages.join.all fun r => (chunk_id_response_compare r).isSome) = true
  · rw [if_pos hall] at h
    injection h with h
    subst h
    refine ⟨?_, ?_, ?_⟩
    · intro r hr
      have hmem : r ∈ pages.join := (List.perm_insertionSort _ _).mem_iff.1 hr
      exact List.all_eq_true.1 hall r hmem
    · haveI : IsTotal RemoteChunkRecord (fun a b =>
          (chunk_name_to_num a.name).getD 0 ≤ (chunk_name_to_num b.name).getD 0) :=
        ⟨fun a b => le_total _ _⟩
      haveI : IsTrans RemoteChunkRecord (fun a b =>
          (chunk_name_to_num a.name).getD 0 ≤ (chunk_name_to_num b.name).getD 0) :=
        ⟨fun a b c hab hbc => le_trans hab hbc⟩
      exact List.sorted_insertionSort _ _
    · exact List.perm_insertionSort _ _
  · rw [if_neg hall] at h
    cases h

/-- Witness for CLAIM C5: two pages arriving out of order
(`[F.3]` then `[F.1, F.2]`) refresh into the cache sorted `F.1, F.2,
F.3`. -/
theorem refresh_cache_sorted_witness :
    refresh_cache [[RemoteChunkRecord.mk "c" "F.3" "h3"],
        [RemoteChunkRecord.mk "a" "F.1" "h1", RemoteChunkRecord.mk "b" "F.2" "h2"]] =
      some [RemoteChunkRecord.mk "a" "F.1" "h1", RemoteChunkRecord.mk "b" "F.2" "h2",
        RemoteChunkRecord.mk "c" "F.3" "h3"] ∧
    ((∀ r ∈ [RemoteChunkRecord.mk "a" "F.1" "h1", RemoteChunkRecord.mk "b" "F.2" "h2",
        RemoteChunkRecord.mk "c" "F.3" "h3"], (chunk_name_to_num r.name).isSome) ∧
      ([RemoteChunkRecord.mk "a" "F.1" "h1", RemoteChunkRecord.mk "b" "F.2" "h2",
        RemoteChunkRecord.mk "c" "F.3" "h3"] : List RemoteChunkRecord).Sorted (fun a b =>
          (chunk_name_to_num a.name).getD 0 ≤ (chunk_name_to_num b.name).getD 0) ∧
      ([RemoteChunkRecord.mk "a" "F.1" "h1", RemoteChunkRecord.mk "b" "F.2" "h2",
        RemoteChunkRecord.mk "c" "F.3" "h3"] : List RemoteChunkRecord).Perm
        ([[RemoteChunkRecord.mk "c" "F.3" "h3"],
          [RemoteChunkRecord.mk "a" "F.1" "h1",
            RemoteChunkRecord.mk "b" "F.2" "h2"]] : List (List RemoteChunkRecord)).join) :=
  ⟨by decide,
   refresh_cache_sorted
     [[RemoteChunkRecord.mk "c" "F.3" "h3"],
       [RemoteChunkRecord.mk "a" "F.1" "h1", RemoteChunkRecord.mk "b" "F.2" "h2"]]
     [RemoteChunkRecord.mk "a" "F.1" "h1", RemoteChunkRecord.mk "b" "F.2" "h2",
       RemoteChunkRecord.mk "c" "F.3" "h3"]
     (by decide)⟩

/-- The three possible values of the `ChangedFile` returned by change
detection, as branched on by `begin_file_restore` (`ECRS.py` lines
129-144): up to date (`changed = False`), changed with a remote id,
changed with no id. -/
inductive RestoreClassification where
  | upToDate
  | changedWithId
  | changedNoId
deriving DecidableEq, Repr

/-- The per-chunk loop of `begin_file_restore` (`ECRS.py` lines 114-152),
tracking `bytes_downloaded`.  `sizes` are the `int(chunk['size'])`
values of the cached chunk records in order, `chunk_num` the one-based
counter, and `classify chunk_num` abstracts the outcome of
`check_if_chunk_exists_or_changed` on that chunk (only reached when
`file_size >= chunk_size + bytes_downloaded`).  The returned list holds
the value of `bytes_downloaded` after each completed loop iteration;
the `changedNoId` branch `return False` aborts the loop.  All remaining
branches (skip as up to date, re-download, download fresh) fall through
to the unconditional `bytes_downloaded += chunk_size`. -/
def begin_file_restore_trace (file_size : Nat) (classify : Nat → RestoreClassification) :
    List Nat → Nat → Nat → List Nat
  | [], _, _ => []
  | chunk_size :: rest, chunk_num, bytes_downloaded =>
    if chunk_size + bytes_downloaded ≤ file_size then
      match classify chunk_num with
      | .changedNoId => []
      | _ =>
        (bytes_downloaded + chunk_size) ::
          begin_file_restore_trace file_size classify rest (chunk_num + 1)
            (bytes_downloaded + chunk_size)
    else
      (bytes_downloaded + chunk_size) ::
        begin_file_restore_trace file_size classify rest (chunk_num + 1)
          (bytes_downloaded + chunk_size)

/-- The value of `bytes_uploaded` in `begin_backup` (`ECBU.py` line 170)
after processing chunk `i` (zero-based): the accumulated
`file_chunk.size() = end_index - bytes_uploaded` of the first `i + 1`
chunks. -/
def bytes_uploaded_after (chunks : List (Nat × Nat)) (i : Nat) : Nat :=
  (((chunks.take (i + 1)).map (fun p => p.2 - p.1))).sum

theorem begin_file_restore_trace_get (file_size : Nat)
    (classify : Nat → RestoreClassification) :
    ∀ (sizes : List Nat) (chunk_num bytes_downloaded j v : Nat),
      (begin_file_restore_trace file_size classify sizes chunk_num
          bytes_downloaded)[j]? = some v →
      v = bytes_downloaded + (sizes.take (j + 1)).sum := by
  intro sizes
  induction sizes with
  | nil => intro _ _ j v h; simp [begin_file_restore_trace] at h
  | cons s rest ih =>
    intro chunk_num bytes_downloaded j v h
    rw [begin_file_restore_trace.eq_def] at h
    dsimp only at h
    by_cases hfit : s + bytes_downloaded ≤ file_size
    · rw [if_pos hfit] at h
      rcases hcl : classify chunk_num with _ | _ | _ <;> rw [hcl] at h <;> dsimp only at h
      · cases j with
        | zero =>
          simp only [List.getElem?_cons_zero, Option.some.injEq] at h
          simp [← h]
        | succ j =>
          simp only [List.getElem?_cons_succ] at h
          have := ih (chunk_num + 1) (bytes_downloaded + s) j v h
          simp only [List.take_succ_cons, List.sum_cons]
          omega
      · cases j with
        | zero =>
          simp only [List.getElem?_cons_zero, Option.some.injEq] at h
          simp [← h]
        | succ j =>
          simp only [List.getElem?_cons_succ] at h
          have := ih (chunk_num + 1) (bytes_downloaded + s) j v h
          simp only [List.take_succ_cons, List.sum_cons]
          omega
      · simp at h
    · rw [if_neg hfit] at h
      cases j with
      | zero =>
        simp only [List.getElem?_cons_zero, Option.some.injEq] at h
        simp [← h]
      | succ j =>
        simp only [List.getElem?_cons_succ] at h
        have := ih (chunk_num + 1) (bytes_downloaded + s) j v h
        simp only [List.take_succ_cons, List.sum_cons]
        omega

theorem sum_take_map_sub (a : Nat → Nat) (mono : Monotone a) :
    ∀ (i n : Nat), i < n →
      (((List.range n).map (fun j => a (j + 1) - a j)).take (i + 1)).sum =
        a (i + 1) - a 0 := by
  intro i
  induction i with
  | zero =>
    intro n hn
    obtain ⟨m, rfl⟩ : ∃ m, n = m + 1 := ⟨n - 1, by omega⟩
    rw [List.range_succ_eq_map]
    simp
  | succ i ih =>
    intro n hn
    obtain ⟨m, rfl⟩ : ∃ m, n = m + 1 := ⟨n - 1, by omega⟩
    rw [← List.map_take, List.take_range, min_eq_left (by omega : i + 1 + 1 ≤ m + 1)]
    have prev : (((List.range (m + 1)).map (fun j => a (j + 1) - a j)).take (i + 1)).sum =
        a (i + 1) - a 0 := ih (m + 1) (by omega)
    rw [← List.map_take, List.take_range, min_eq_left (by omega : i + 1 ≤ m + 1)] at prev
    rw [List.range_succ, List.map_append, List.sum_append, prev]
    have h1 : a 0 ≤ a (i + 1) := mono (by omega)
    have h2 : a (i + 1) ≤ a (i + 1 + 1) := mono (by omega)
    simp only [List.map_cons, List.map_nil, List.sum_cons, List.sum_nil]
    omega

/-- CLAIM C9: in both drivers the cumulative byte counter advances by the
full chunk size after every chunk regardless of branch.  Restore: for
every classification oracle, the `j`-th entry of the
`begin_file_restore` trace of `bytes_downloaded` equals the sum of the
sizes of the first `j + 1` chunks.  Backup: `bytes_uploaded` after chunk
`i` equals the end offset of chunk `i`, whether the chunk was
transferred or skipped (the transfer outcome does not appear in the
counter update at all). -/
theorem counters_advance_unconditionally :
    (∀ (file_size : Nat) (classify : Nat → RestoreClassification) (sizes : List Nat)
        (j v : Nat),
        (begin_file_restore_trace file_size classify sizes 1 0)[j]? = some v →
        v = (sizes.take (j + 1)).sum) ∧
    (∀ (fs c : Nat), 0 < c → ∀ (i : Nat) (p : Nat × Nat),
        (begin_backup_chunks fs c)[i]? = some p →
        bytes_uploaded_after (begin_backup_chunks fs c) i = p.2) := by
  constructor
  · intro file_size classify sizes j v h
    have := begin_file_restore_trace_get file_size classify sizes 1 0 j v h
    omega
  · intro fs c hc i p hp
    rw [begin_backup_chunks_eq] at hp ⊢
    set N := num_chunk_files fs c with hN
    set f : Nat → Nat × Nat := fun i => (min (i * c) fs, min ((i + 1) * c) fs) with hf
    rcases List.getElem?_eq_some.1 hp with ⟨hlen, hval⟩
    simp only [List.length_map, List.length_range] at hlen
    have hpv : p = f i := by
      rw [← hval]
      simp [hf]
    set a : Nat → Nat := fun j => min (j * c) fs with ha
    have hmono : Monotone a := by
      intro x y hxy
      exact min_le_min (Nat.mul_le_mul_right c hxy) le_rfl
    unfold bytes_uploaded_after
    rw [← List.map_take, List.map_map, List.map_take]
    have hfg : ((fun p : Nat × Nat => p.2 - p.1) ∘ f) = fun j => a (j + 1) - a j := rfl
    rw [hfg, sum_take_map_sub a hmono i N hlen, hpv]
    have ha0 : a 0 = 0 := by simp [ha]
    rw [ha0, Nat.sub_zero]

/-- The state of an `IncreasingBackoff` (`ErrorWaiting.py`).  Python
floats are modelled as exact rationals; the `stepping_multiplier` is
declared `int` in the source but participates in the same arithmetic. -/
structure IncreasingBackoff where
  initial_wait_time : ℚ
  wait_time : ℚ
  max_wait_time : ℚ
  stepping_multiplier : ℚ
deriving DecidableEq, Repr

/-- `IncreasingBackoff.__init__` (`ErrorWaiting.py` lines 11-17). -/
def IncreasingBackoff.init (initial_time_secs max_wait_time stepping_multiplier : ℚ) :
    IncreasingBackoff :=
  ⟨initial_time_secs, initial_time_secs, max_wait_time, stepping_multiplier⟩

/-- `IncreasingBackoff.wait` (`ErrorWaiting.py` lines 19-30), tracking
only the state update (the `time.sleep` side effect sleeps for the
pre-update `wait_time`). -/
def IncreasingBackoff.wait (b : IncreasingBackoff) : IncreasingBackoff :=
  if b.wait_time < b.max_wait_time then
    let wait_time_increase := b.wait_time * b.stepping_multiplier
    if wait_time_increase > b.max_wait_time then
      { b with wait_time := b.max_wait_time }
    else
      { b with wait_time := wait_time_increase }
  else b

/-- `IncreasingBackoff.reset_to_initial` (`ErrorWaiting.py` lines 32-34). -/
def IncreasingBackoff.reset_to_initial (b : IncreasingBackoff) : IncreasingBackoff :=
  { b with wait_time := b.initial_wait_time }

/-- `k` consecutive calls to `wait()` with no intervening reset. -/
def IncreasingBackoff.iterate_wait (b : IncreasingBackoff) : Nat → IncreasingBackoff
  | 0 => b
  | k + 1 => (b.iterate_wait k).wait

theorem iterate_wait_fields (b : IncreasingBackoff) (k : Nat) :
    (b.iterate_wait k).initial_wait_time = b.initial_wait_time ∧
    (b.iterate_wait k).max_wait_time = b.max_wait_time ∧
    (b.iterate_wait k).stepping_multiplier = b.stepping_multiplier := by
  induction k with
  | zero => exact ⟨rfl, rfl, rfl⟩
  | succ k ih =>
    have hs : (b.iterate_wait (k + 1)) = (b.iterate_wait k).wait := rfl
    simp only [hs, IncreasingBackoff.wait]
    split_ifs <;> exact ih

/-- CLAIM C6 (corrected): for an `IncreasingBackoff` constructed with
`0 ≤ initial_wait ≤ max_wait` and `multiplier ≥ 1`, after `k`
consecutive `wait()` calls the stored `wait_time` equals
`min(initial * multiplier ^ k, max)`, the invariant
`initial_wait ≤ wait_time ≤ max_wait` holds at every `k`, and
`reset_to_initial()` restores `wait_time` to the initial value.  The
nonnegativity of `initial_wait` is required: the claim as stated fails
for negative initial waits. -/
theorem increasing_backoff_spec (i mx m : ℚ) (h0 : 0 ≤ i) (h1 : i ≤ mx) (hm : 1 ≤ m) :
    (∀ k, ((IncreasingBackoff.init i mx m).iterate_wait k).wait_time =
        min (i * m ^ k) mx) ∧
    (∀ k, i ≤ ((IncreasingBackoff.init i mx m).iterate_wait k).wait_time ∧
        ((IncreasingBackoff.init i mx m).iterate_wait k).wait_time ≤ mx) ∧
    (∀ k, (((IncreasingBackoff.init i mx m).iterate_wait k).reset_to_initial).wait_time = i) := by
  have hww : ∀ b : IncreasingBackoff, (b.wait).wait_time =
      if b.wait_time < b.max_wait_time then
        (if b.wait_time * b.stepping_multiplier > b.max_wait_time then b.max_wait_time
         else b.wait_time * b.stepping_multiplier)
      else b.wait_time := by
    intro b
    simp only [IncreasingBackoff.wait]
    split_ifs <;> rfl
  have hform : ∀ k, ((IncreasingBackoff.init i mx m).iterate_wait k).wait_time =
      min (i * m ^ k) mx := by
    intro k
    induction k with
    | zero =>
      simp only [IncreasingBackoff.iterate_wait, IncreasingBackoff.init, pow_zero, mul_one]
      exact (min_eq_left h1).symm
    | succ k ih =>
      obtain ⟨hfi, hfm, hfs⟩ := iterate_wait_fields (IncreasingBackoff.init i mx m) k
      have hstep : (IncreasingBackoff.init i mx m).iterate_wait (k + 1) =
          ((IncreasingBackoff.init i mx m).iterate_wait k).wait := rfl
      have hmx : (IncreasingBackoff.init i mx m).max_wait_time = mx := rfl
      have hsm : (IncreasingBackoff.init i mx m).stepping_multiplier = m := rfl
      rw [hstep, hww, hfm, hfs, ih, hmx, hsm]
      have hpow : (0 : ℚ) ≤ i * m ^ k := by positivity
      have hpow' : i * m ^ k ≤ i * m ^ k * m := le_mul_of_one_le_right hpow hm
      have hps : i * m ^ (k + 1) = i * m ^ k * m := by ring
      rcases lt_or_le (i * m ^ k) mx with hlt | hge
      · rw [min_eq_left (le_of_lt hlt), if_pos hlt]
        rcases lt_or_le mx (i * m ^ k * m) with hgt | hle
        · rw [if_pos hgt, hps, min_eq_right (le_of_lt hgt)]
        · rw [if_neg (not_lt.2 hle), hps, min_eq_left hle]
      · rw [min_eq_right hge, if_neg (lt_irrefl mx), hps,
          min_eq_right (le_trans hge hpow')]
  refine ⟨hform, ?_, ?_⟩
  · intro k
    rw [hform k]
    constructor
    · apply le_min
      · have : (1 : ℚ) ≤ m ^ k := by
          calc (1 : ℚ) = 1 ^ k := (one_pow k).symm
            _ ≤ m ^ k := pow_le_pow_left (by norm_num) hm k
        nlinarith
      · exact h1
    · exact min_le_right _ _
  · intro k
    obtain ⟨hfi, _, _⟩ := iterate_wait_fields (IncreasingBackoff.init i mx m) k
    rw [IncreasingBackoff.reset_to_initial, hfi]
    rfl

/-- CLAIM C6, counterexample to the claim as stated: the hypotheses of
the claim (`initial_wait ≤ max_wait`, `multiplier ≥ 1`) admit the
negative initial wait `-2` with `max_wait = -2` and multiplier `2`;
after one `wait()` the stored time is `-2` (the `wait_time < max_wait`
guard fails), but the claimed formula demands
`min(-2 * 2 ^ 1, -2) = -4`. -/
theorem increasing_backoff_formula_fails_for_negative :
    ((-2 : ℚ) ≤ -2 ∧ (1 : ℚ) ≤ 2) ∧
    ((IncreasingBackoff.init (-2) (-2) 2).iterate_wait 1).wait_time ≠
      min ((-2 : ℚ) * 2 ^ 1) (-2) := by
  refine ⟨⟨le_refl _, by norm_num⟩, ?_⟩
  show ((IncreasingBackoff.init (-2) (-2) 2).iterate_wait 1).wait_time ≠ min ((-2 : ℚ) * 2 ^ 1) (-2)
  norm_num [IncreasingBackoff.iterate_wait, IncreasingBackoff.wait, IncreasingBackoff.init]

/-- Witness for CLAIM C6 at `initial = 1/2`, `max = 120`,
`multiplier = 2`, `k = 2`. -/
theorem increasing_backoff_spec_witness :
    ((0 : ℚ) ≤ 1/2 ∧ (1/2 : ℚ) ≤ 120 ∧ (1 : ℚ) ≤ 2) ∧
    ((IncreasingBackoff.init (1/2) 120 2).iterate_wait 2).wait_time =
      min ((1/2 : ℚ) * 2 ^ 2) 120 :=
  ⟨⟨by norm_num, by norm_num, by norm_num⟩,
   (increasing_backoff_spec (1/2) 120 2 (by norm_num) (by norm_num) (by norm_num)).1 2⟩

/-- Witness for CLAIM C9: restore trace of a 10-byte local file with
chunk sizes `[3, 4]` (all chunks up to date) has `bytes_downloaded = 7`
after the second chunk, and in the backup of a 5-byte file with 2-byte
chunks `bytes_uploaded` after chunk 1 equals that chunk's end offset 4. -/
theorem counters_advance_unconditionally_witness :
    (begin_file_restore_trace 10 (fun _ => RestoreClassification.upToDate) [3, 4] 1 0)[1]? =
        some 7 ∧
    (7 : Nat) = ([3, 4].take 2).sum ∧
    0 < 2 ∧
    (begin_backup_chunks 5 2)[1]? = some (2, 4) ∧
    bytes_uploaded_after (begin_backup_chunks 5 2) 1 = (2, 4).2 :=
  ⟨by decide,
   counters_advance_unconditionally.1 10 (fun _ => RestoreClassification.upToDate) [3, 4] 1 7
     (by decide),
   by decide,
   by decide,
   counters_advance_unconditionally.2 5 2 (by decide) 1 (2, 4) (by decide)⟩
